import Mathlib

/-!
Verification of the Go-Back-N (GBN) protocol implementation
(`packet.py`, `gbn.py`): sequence-number arithmetic, Internet checksum
framing, packet buffers, timers and the sender engine.

Bytes are modelled as `Nat` together with `< 256` bounds, byte strings as
`List Nat`, and Python's arbitrary-precision integers as `Nat`/`Int` with
explicit masking where the source masks.
-/

set_option maxRecDepth 8192

/-! ## SequenceSpace: `Seq` (packet.py lines 4-49) -/

/-- `Seq.MOD = 1 << 8`. -/
def seqMOD : Nat := 1 <<< 8

/-- `Seq.HALF = MOD >> 1`. -/
def seqHALF : Nat := seqMOD >>> 1

/-- `Seq.__init__`: the stored value is `number % Seq.MOD`; every `Seq`
object's `.seq` attribute is in `[0, 256)`. -/
def mkSeq (number : Nat) : Nat := number % seqMOD

/-- `Seq.__add__`: `Seq(self.seq + n)`, i.e. forward `n` steps mod 256. -/
def seqAdd (a n : Nat) : Nat := mkSeq (a + n)

/-- `Seq.__lt__` (packet.py lines 37-41):
`(self.seq < other.seq and other.seq - self.seq < HALF) or
 (self.seq > other.seq and self.seq - other.seq > HALF)`. -/
def seqLt (a b : Nat) : Bool :=
  (decide (a < b) && decide (b - a < seqHALF)) ||
  (decide (b < a) && decide (a - b > seqHALF))

/-- `srange` (packet.py lines 52-60): the generator loop
`seq = Seq(start.seq); while seq != end: yield seq; seq += 1`.
Both the running value and the bound are `Seq`-normalized (`% 256`), as
guaranteed by the `Seq` constructor in the source. -/
def srangeAux (seq e : Nat) : List Nat :=
  if seq % 256 = e % 256 then []
  else (seq % 256) :: srangeAux (seq % 256 + 1) e
termination_by (e % 256 + 256 - seq % 256) % 256
decreasing_by omega

/-- `srange(start, end)` as a finite list of the yielded sequence values. -/
def srange (start e : Nat) : List Nat := srangeAux start e

theorem srangeAux_unfold (seq e : Nat) :
    srangeAux seq e = if seq % 256 = e % 256 then []
      else (seq % 256) :: srangeAux (seq % 256 + 1) e := by
  rw [srangeAux]

theorem srangeAux_eq_map_range :
    ∀ k, k < 256 → ∀ s, srangeAux s ((s + k) % 256) = (List.range k).map (fun i => (s + i) % 256) := by
  intro k
  induction k with
  | zero =>
    intro _ s
    rw [srangeAux_unfold]
    rw [if_pos (by omega)]
    simp
  | succ k ih =>
    intro hk s
    rw [srangeAux_unfold]
    rw [if_neg (by omega)]
    have harg : (s + (k + 1)) % 256 = ((s % 256 + 1) + k) % 256 := by omega
    rw [harg, ih (by omega) (s % 256 + 1)]
    rw [List.range_succ_eq_map, List.map_cons, List.map_map]
    simp only [List.cons.injEq]
    refine ⟨by omega, List.map_congr_left ?_⟩
    intro i _
    simp only [Function.comp_apply, Nat.succ_eq_add_one]
    omega

/-- Elements yielded by `srange` lie in `[0, 256)`. -/
theorem srange_mem_lt (start e : Nat) : ∀ x ∈ srange start e, x < 256 := by
  unfold srange
  generalize hm : (e % 256 + 256 - start % 256) % 256 = m
  induction m using Nat.strong_induction_on generalizing start with
  | _ m ih =>
    rw [srangeAux_unfold]
    split
    · simp
    · next hne =>
      intro x hx
      rcases List.mem_cons.mp hx with h | h
      · omega
      · exact ih ((e % 256 + 256 - (start % 256 + 1) % 256) % 256) (by omega) _ rfl x h

/-- C8: `srange(s, s)` yields no elements, and for `0 ≤ k < 256`,
`srange(s, s + k)` yields exactly the `k` elements
`s, s+1, ..., s+k-1` (mod 256) in ascending circular order, finitely. -/
theorem C8_srange_spec (s : Nat) (hs : s < 256) :
    srange s s = [] ∧
    ∀ k, k < 256 →
      srange s (seqAdd s k) = (List.range k).map (fun i => (s + i) % 256) ∧
      (srange s (seqAdd s k)).length = k := by
  constructor
  · rw [srange, srangeAux_unfold]
    rw [if_pos rfl]
  · intro k hk
    have h := srangeAux_eq_map_range k hk s
    have hadd : seqAdd s k = (s + k) % 256 := by
      simp [seqAdd, mkSeq, seqMOD]
    constructor
    · rw [srange, hadd, h]
    · rw [srange, hadd, h]
      simp

/-- C8 witness: concrete wraparound instance `srange 254 2 = [254, 255, 0, 1]`. -/
theorem C8_srange_spec_witness :
    (254 : Nat) < 256 ∧ srange 254 (seqAdd 254 4) = [254, 255, 0, 1] ∧
      (srange 254 (seqAdd 254 4)).length = 4 := by
  refine ⟨by decide, ?_, ?_⟩
  · have h := (C8_srange_spec 254 (by decide)).2 4 (by decide)
    rw [h.1]
    decide
  · exact (C8_srange_spec 254 (by decide)).2 4 (by decide) |>.2

/-- C4: `Seq.__lt__(a, b)` holds iff the forward circular distance
`(b - a) mod 256` is smaller than the backward distance `(a - b) mod 256`
(the half-modulus 128 tie `fwd = bwd = 128` making both comparisons false);
for values whose true circular distance is strictly below 128 exactly one of
`a < b`, `a == b`, `b < a` holds; and concretely `Seq(250) + 10 == Seq(4)`
with `Seq(250) < Seq(4)`. -/
theorem C4_circular_ordering (a b : Nat) (ha : a < 256) (hb : b < 256) :
    (seqLt a b = true ↔ (b + 256 - a) % 256 < (a + 256 - b) % 256) ∧
    (min ((b + 256 - a) % 256) ((a + 256 - b) % 256) < 128 →
      (seqLt a b = true ∧ a ≠ b ∧ seqLt b a = false) ∨
      (a = b ∧ seqLt a b = false ∧ seqLt b a = false) ∨
      (seqLt b a = true ∧ a ≠ b ∧ seqLt a b = false)) ∧
    seqAdd 250 10 = 4 ∧ seqLt 250 4 = true := by
  refine ⟨?_, ?_, by decide, by decide⟩
  · simp only [seqLt, seqHALF, seqMOD, Bool.or_eq_true, Bool.and_eq_true, decide_eq_true_eq]
    norm_num
    omega
  · intro hmin
    simp only [seqLt, seqHALF, seqMOD, Bool.or_eq_true, Bool.and_eq_true, decide_eq_true_eq,
      Bool.or_eq_false_iff, Bool.and_eq_false_iff, decide_eq_false_iff_not]
    norm_num
    omega

/-- C4 witness at the wraparound pair (250, 4). -/
theorem C4_circular_ordering_witness :
    (250 : Nat) < 256 ∧ (4 : Nat) < 256 ∧
      (seqLt 250 4 = true ↔ (4 + 256 - 250) % 256 < (250 + 256 - 4) % 256) := by
  exact ⟨by decide, by decide, (C4_circular_ordering 250 4 (by decide) (by decide)).1⟩

/-! ## Frame / Packet (packet.py lines 75-150) -/

/-- Word-summing loop of `Packet.ichecksum` (packet.py lines 122-126):
`for i in range(0, len(pdu), 2)` adds the big-endian word `(pdu[i] << 8) + pdu[i+1]`,
and a trailing odd byte is added as the bare byte value `pdu[i]`. -/
def sum16 : List Nat → Nat
  | [] => 0
  | [a] => a
  | a :: b :: rest => ((a <<< 8) + b) + sum16 rest

/-- Carry-folding loop of `Packet.ichecksum` (packet.py lines 128-129):
`while (sum >> 16) > 0: sum = (sum & 0xFFFF) + (sum >> 16)`. -/
def foldCarry (s : Nat) : Nat :=
  if s >>> 16 > 0 then foldCarry ((s &&& 0xFFFF) + (s >>> 16)) else s
termination_by s
decreasing_by
  have h1 : s &&& 65535 = s % 65536 := by
    have := Nat.and_pow_two_sub_one_eq_mod s 16
    norm_num at this
    exact this
  have h2 : s >>> 16 = s / 65536 := by
    have := Nat.shiftRight_eq_div_pow s 16
    norm_num at this
    exact this
  omega

/-- Final masking of `Packet.ichecksum` (packet.py lines 131-132):
`sum = ~sum; return sum & 0xFFFF`, with Python's arbitrary-precision
two's-complement semantics of `~` and `&` on a possibly negative value. -/
def pyNot16 (s : Nat) : Nat := (((-(s : Int)) - 1) % 65536).toNat

/-- `Packet.ichecksum` with the default initial `sum=0`. -/
def ichecksum (pdu : List Nat) : Nat := pyNot16 (foldCarry (sum16 pdu))

/-- `Packet.corrupt` (packet.py line 136): `self.ichecksum() != 0`. -/
def corrupt (pdu : List Nat) : Bool := decide (ichecksum pdu ≠ 0)

/-- `Packet.__init__(type, seq, data)` (packet.py lines 96-99): build the
header with a zeroed checksum field, append the payload, compute the
checksum over it and store it big-endian at offsets 2-3. -/
def mkPacket (kind seq : Nat) (data : List Nat) : List Nat :=
  let pdu0 := kind :: seq :: 0 :: 0 :: data
  let checksum := ichecksum pdu0
  kind :: seq :: (checksum >>> 8) :: (checksum &&& 0xFF) :: data

/-- Replacement of byte `j` of a serialized pdu by the same byte with
bit `i` flipped (XOR with `1 << i`). -/
def flipBit (pdu : List Nat) (j i : Nat) : List Nat :=
  pdu.set j ((pdu.getD j 0) ^^^ (1 <<< i))

theorem land_ffff (s : Nat) : s &&& 65535 = s % 65536 := by
  have := Nat.and_pow_two_sub_one_eq_mod s 16
  norm_num at this
  exact this

theorem land_ff (s : Nat) : s &&& 255 = s % 256 := by
  have := Nat.and_pow_two_sub_one_eq_mod s 8
  norm_num at this
  exact this

theorem shift16 (s : Nat) : s >>> 16 = s / 65536 := by
  have := Nat.shiftRight_eq_div_pow s 16
  norm_num at this
  exact this

theorem shift8 (s : Nat) : s >>> 8 = s / 256 := by
  have := Nat.shiftRight_eq_div_pow s 8
  norm_num at this
  exact this

theorem foldCarry_unfold (s : Nat) :
    foldCarry s = if s >>> 16 > 0 then foldCarry ((s &&& 0xFFFF) + (s >>> 16)) else s := by
  rw [foldCarry]

theorem foldCarry_eq_of_lt (s : Nat) (h : s < 65536) : foldCarry s = s := by
  rw [foldCarry_unfold, if_neg]
  rw [shift16]
  omega

theorem foldCarry_lt (s : Nat) : foldCarry s < 65536 := by
  induction s using Nat.strong_induction_on with
  | _ s ih =>
    rw [foldCarry_unfold]
    split
    · next h =>
      apply ih
      rw [land_ffff, shift16] at *
      omega
    · next h =>
      rw [shift16] at h
      omega

theorem foldCarry_le (s : Nat) : foldCarry s ≤ s := by
  induction s using Nat.strong_induction_on with
  | _ s ih =>
    rw [foldCarry_unfold]
    split
    · next h =>
      have h2 : (s &&& 65535) + s >>> 16 < s := by
        rw [land_ffff, shift16] at *
        omega
      exact le_trans (ih _ h2) (le_of_lt h2)
    · exact le_refl s

theorem foldCarry_pos (s : Nat) (hs : 0 < s) : 0 < foldCarry s := by
  induction s using Nat.strong_induction_on with
  | _ s ih =>
    rw [foldCarry_unfold]
    split
    · next h =>
      rw [land_ffff, shift16] at *
      exact ih _ (by omega) (by omega)
    · exact hs

theorem foldCarry_mod (s : Nat) : foldCarry s % 65535 = s % 65535 := by
  induction s using Nat.strong_induction_on with
  | _ s ih =>
    rw [foldCarry_unfold]
    split
    · next h =>
      rw [land_ffff, shift16] at *
      rw [ih _ (by omega)]
      omega
    · rfl

theorem pyNot16_lt (s : Nat) : pyNot16 s < 65536 := by
  unfold pyNot16
  omega

theorem pyNot16_eq (s : Nat) (h : s < 65536) : pyNot16 s = 65535 - s := by
  unfold pyNot16
  omega

/-- If the folded sum is a positive multiple of 65535 it folds to exactly 65535. -/
theorem foldCarry_eq_ffff (s : Nat) (h0 : 0 < s) (hm : s % 65535 = 0) :
    foldCarry s = 65535 := by
  have h1 := foldCarry_lt s
  have h2 := foldCarry_pos s h0
  have h3 := foldCarry_mod s
  omega

/-- All bytes of an encoded packet are below 256. -/
theorem mkPacket_bytes (k s : Nat) (hk : k < 256) (hs : s < 256) (d : List Nat)
    (hd : ∀ b ∈ d, b < 256) : ∀ b ∈ mkPacket k s d, b < 256 := by
  intro b hb
  simp only [mkPacket, List.mem_cons] at hb
  have hc := pyNot16_lt (foldCarry (sum16 (k :: s :: 0 :: 0 :: d)))
  rcases hb with rfl | rfl | rfl | rfl | h
  · exact hk
  · exact hs
  · rw [ichecksum, shift8]
    omega
  · rw [ichecksum, land_ff]
    omega
  · exact hd b h

/-- The encoded packet's word sum is a positive multiple of 65535: the
stored checksum word exactly complements the zero-checksum word sum. -/
theorem mkPacket_sum (k s : Nat) (hk : 1 ≤ k) (d : List Nat) :
    sum16 (mkPacket k s d) % 65535 = 0 ∧ 65535 ≤ sum16 (mkPacket k s d) := by
  have hS0 : sum16 (k :: s :: 0 :: 0 :: d) = (k <<< 8) + s + sum16 d := by
    simp [sum16]
  have hS1 : sum16 (mkPacket k s d) =
      (k <<< 8) + s + ((ichecksum (k :: s :: 0 :: 0 :: d) >>> 8) <<< 8 +
        (ichecksum (k :: s :: 0 :: 0 :: d) &&& 255)) + sum16 d := by
    simp only [mkPacket, sum16]
    ring
  have hclt : ichecksum (k :: s :: 0 :: 0 :: d) < 65536 := pyNot16_lt _
  have hcsplit : (ichecksum (k :: s :: 0 :: 0 :: d) >>> 8) <<< 8 +
      (ichecksum (k :: s :: 0 :: 0 :: d) &&& 255) = ichecksum (k :: s :: 0 :: 0 :: d) := by
    rw [shift8, land_ff, Nat.shiftLeft_eq]
    omega
  rw [hcsplit] at hS1
  have hceq : ichecksum (k :: s :: 0 :: 0 :: d) =
      65535 - foldCarry (sum16 (k :: s :: 0 :: 0 :: d)) := by
    rw [ichecksum, pyNot16_eq _ (foldCarry_lt _)]
  have hfle := foldCarry_le (sum16 (k :: s :: 0 :: 0 :: d))
  have hfmod := foldCarry_mod (sum16 (k :: s :: 0 :: 0 :: d))
  have hflt := foldCarry_lt (sum16 (k :: s :: 0 :: 0 :: d))
  have hpos : 256 ≤ sum16 (k :: s :: 0 :: 0 :: d) := by
    rw [hS0, Nat.shiftLeft_eq]
    have : 256 ≤ k * 256 := by omega
    omega
  rw [hS0] at hceq hfle hfmod hflt hpos
  rw [hS1, hceq]
  omega

/-- C2: for every payload (any length, including empty and odd), every valid
kind in `{DATA, ACK, FIN}` and every sequence number, the packet built by
`Packet(kind, seq, data)` satisfies `corrupt() == false`. -/
theorem C2_encode_roundtrip (k s : Nat) (hk : k = 1 ∨ k = 2 ∨ k = 4) (hs : s < 256)
    (d : List Nat) (hd : ∀ b ∈ d, b < 256) :
    corrupt (mkPacket k s d) = false := by
  have hsum := mkPacket_sum k s (by omega) d
  have h1 := foldCarry_eq_ffff (sum16 (mkPacket k s d)) (by omega) hsum.1
  rw [corrupt, ichecksum, h1, pyNot16_eq _ (by norm_num)]
  simp

/-- C2 witness: `encode(DATA, 5, b"ab")` verifies as uncorrupted. -/
theorem C2_encode_roundtrip_witness :
    ((5 : Nat) < 256 ∧ ∀ b ∈ [97, 98], b < 256) ∧
      corrupt (mkPacket 1 5 [97, 98]) = false :=
  ⟨⟨by decide, by decide⟩,
    C2_encode_roundtrip 1 5 (Or.inl rfl) (by decide) [97, 98] (by decide)⟩

/-- XOR with a single in-range bit either adds or subtracts that power of two. -/
theorem xor_single_bit :
    ∀ x < 256, ∀ i < 8,
      (x ^^^ (1 <<< i) = x + (1 <<< i) ∨ (x ^^^ (1 <<< i)) + (1 <<< i) = x) := by
  decide

/-- Flipping one bit of one byte changes the word sum by exactly `±2^kk`
for some bit position `kk ≤ 15`. -/
theorem sum16_flip :
    ∀ (n : Nat) (l : List Nat), l.length ≤ n → ∀ j, (∀ b ∈ l, b < 256) → j < l.length →
      ∀ i, i < 8 →
        ∃ kk, kk ≤ 15 ∧
          (sum16 (l.set j ((l.getD j 0) ^^^ (1 <<< i))) = sum16 l + 2 ^ kk ∨
           sum16 (l.set j ((l.getD j 0) ^^^ (1 <<< i))) + 2 ^ kk = sum16 l) := by
  intro n
  induction n with
  | zero =>
    intro l hl j _ hj _ _
    omega
  | succ n ih =>
    intro l hl j hb hj i hi
    match l, j with
    | [a], 0 =>
      have ha : a < 256 := hb a (by simp)
      have hp : (1 : Nat) <<< i = 2 ^ i := Nat.one_shiftLeft i
      rcases xor_single_bit a ha i hi with h | h
      · refine ⟨i, by omega, Or.inl ?_⟩
        show a ^^^ (1 <<< i) = a + 2 ^ i
        rw [hp] at h ⊢
        exact h
      · refine ⟨i, by omega, Or.inr ?_⟩
        show (a ^^^ (1 <<< i)) + 2 ^ i = a
        rw [hp] at h ⊢
        exact h
    | a :: b :: rest, 0 =>
      have ha : a < 256 := hb a (by simp)
      have hp : (1 : Nat) <<< i = 2 ^ i := Nat.one_shiftLeft i
      rcases xor_single_bit a ha i hi with h | h
      · refine ⟨i + 8, by omega, Or.inl ?_⟩
        show ((a ^^^ (1 <<< i)) <<< 8 + b) + sum16 rest = ((a <<< 8 + b) + sum16 rest) + 2 ^ (i + 8)
        rw [hp] at h ⊢
        rw [h, Nat.shiftLeft_eq, Nat.shiftLeft_eq, pow_add]
        ring
      · refine ⟨i + 8, by omega, Or.inr ?_⟩
        show (((a ^^^ (1 <<< i)) <<< 8 + b) + sum16 rest) + 2 ^ (i + 8) = (a <<< 8 + b) + sum16 rest
        rw [hp] at h ⊢
        generalize hx : a ^^^ 2 ^ i = x at h ⊢
        rw [← h, Nat.shiftLeft_eq, Nat.shiftLeft_eq, pow_add]
        ring
    | a :: b :: rest, 1 =>
      have hbb : b < 256 := hb b (by simp)
      have hp : (1 : Nat) <<< i = 2 ^ i := Nat.one_shiftLeft i
      rcases xor_single_bit b hbb i hi with h | h
      · refine ⟨i, by omega, Or.inl ?_⟩
        show (a <<< 8 + (b ^^^ (1 <<< i))) + sum16 rest = ((a <<< 8 + b) + sum16 rest) + 2 ^ i
        rw [hp] at h ⊢
        rw [h]
        ring
      · refine ⟨i, by omega, Or.inr ?_⟩
        show ((a <<< 8 + (b ^^^ (1 <<< i))) + sum16 rest) + 2 ^ i = (a <<< 8 + b) + sum16 rest
        rw [hp] at h ⊢
        generalize hx : b ^^^ 2 ^ i = x at h ⊢
        rw [← h]
        ring
    | a :: b :: rest, (j + 2) =>
      have hrest : rest.length ≤ n := by
        simp only [List.length_cons] at hl
        omega
      have hjr : j < rest.length := by
        simp only [List.length_cons] at hj
        omega
      obtain ⟨kk, hkk, hcase⟩ :=
        ih rest hrest j (fun x hx => hb x (by simp [hx])) hjr i hi
      refine ⟨kk, hkk, ?_⟩
      have hset : (a :: b :: rest).set (j + 2) ((rest.getD j 0) ^^^ (1 <<< i)) =
          a :: b :: rest.set j ((rest.getD j 0) ^^^ (1 <<< i)) := rfl
      have hgd : (a :: b :: rest).getD (j + 2) 0 = rest.getD j 0 := rfl
      rw [hgd, hset]
      rcases hcase with h | h
      · exact Or.inl (by simp only [sum16]; omega)
      · exact Or.inr (by simp only [sum16]; omega)

/-- C3: flipping exactly one bit at any byte/bit position of an encoded
packet's serialized pdu makes `corrupt()` return true. -/
theorem C3_single_bit_error_detection (k s : Nat) (hk : k = 1 ∨ k = 2 ∨ k = 4)
    (hs : s < 256) (d : List Nat) (hd : ∀ b ∈ d, b < 256) (j i : Nat)
    (hj : j < (mkPacket k s d).length) (hi : i < 8) :
    corrupt (flipBit (mkPacket k s d) j i) = true := by
  have hsum := mkPacket_sum k s (by omega) d
  have hbytes : ∀ b ∈ mkPacket k s d, b < 256 :=
    mkPacket_bytes k s (by omega) hs d hd
  obtain ⟨kk, hkk, hcase⟩ :=
    sum16_flip (mkPacket k s d).length (mkPacket k s d) le_rfl j hbytes hj i hi
  have hpow1 : 1 ≤ 2 ^ kk := Nat.one_le_two_pow
  have hpow2 : (2 : Nat) ^ kk ≤ 32768 := by
    calc (2 : Nat) ^ kk ≤ 2 ^ 15 := Nat.pow_le_pow_right (by norm_num) hkk
    _ = 32768 := by norm_num
  have hmod : sum16 (flipBit (mkPacket k s d) j i) % 65535 ≠ 0 := by
    rw [flipBit]
    omega
  have hf1 := foldCarry_lt (sum16 (flipBit (mkPacket k s d) j i))
  have hf2 := foldCarry_mod (sum16 (flipBit (mkPacket k s d) j i))
  rw [corrupt, ichecksum, pyNot16_eq _ hf1]
  simp only [ne_eq, decide_eq_true_eq]
  omega

/-- C3 witness: flipping bit 0 of byte 0 of `encode(DATA, 5, b"ab")` is detected. -/
theorem C3_single_bit_error_detection_witness :
    ((0 < (mkPacket 1 5 [97, 98]).length ∧ (0 : Nat) < 8)) ∧
      corrupt (flipBit (mkPacket 1 5 [97, 98]) 0 0) = true :=
  ⟨⟨by simp [mkPacket], by decide⟩,
    C3_single_bit_error_detection 1 5 (Or.inl rfl) (by decide) [97, 98] (by decide) 0 0
      (by simp [mkPacket]) (by decide)⟩

/-- Built from the spec's words, for comparison with the source's
`ichecksum`: the 16-bit big-endian words of a byte sequence "where a
trailing odd byte is padded with a zero byte to form the last word", i.e.
the RFC-1071 convention in which the data byte is the high-order byte of
the final word. -/
def refWords : List Nat → List Nat
  | [] => []
  | [a] => [a <<< 8]
  | a :: b :: rest => ((a <<< 8) + b) :: refWords rest

/-- The spec's reference checksum: one's complement of the carry-folded
sum of `refWords`. -/
def refChecksum (pdu : List Nat) : Nat := pyNot16 (foldCarry (refWords pdu).sum)

/-- The 16-bit big-endian words as the source actually sums them: a
trailing odd byte contributes the word whose high-order byte is zero and
whose low-order byte is the data byte (the bare byte value). -/
def lowPadWords : List Nat → List Nat
  | [] => []
  | [a] => [a]
  | a :: b :: rest => ((a <<< 8) + b) :: lowPadWords rest

theorem sum16_eq_lowPadWords_sum :
    ∀ (n : Nat) (l : List Nat), l.length ≤ n → sum16 l = (lowPadWords l).sum := by
  intro n
  induction n with
  | zero =>
    intro l hl
    match l with
    | [] => rfl
  | succ n ih =>
    intro l hl
    match l with
    | [] => rfl
    | [a] => rfl
    | a :: b :: rest =>
      show ((a <<< 8) + b) + sum16 rest = ((a <<< 8) + b) + (lowPadWords rest).sum
      rw [ih rest (by simp only [List.length_cons] at hl; omega)]

/-- C5 counterexample: on the 5-byte pdu `[1, 0, 0, 0, 1]` (an odd-length
frame) the source checksum and the claim's reference definition disagree:
the source adds the trailing byte 1 as the word 1, the reference pads it
into the word 256. -/
theorem C5_checksum_counterexample :
    ichecksum [1, 0, 0, 0, 1] ≠ refChecksum [1, 0, 0, 0, 1] := by
  have h1 : sum16 [1, 0, 0, 0, 1] = 257 := by norm_num [sum16, Nat.shiftLeft_eq]
  have h2 : (refWords [1, 0, 0, 0, 1]).sum = 512 := by norm_num [refWords, Nat.shiftLeft_eq]
  rw [ichecksum, refChecksum, h1, h2, foldCarry_eq_of_lt 257 (by norm_num),
    foldCarry_eq_of_lt 512 (by norm_num), pyNot16_eq 257 (by norm_num),
    pyNot16_eq 512 (by norm_num)]
  norm_num

/-- C5 amended: `ichecksum()` equals the one's complement of the
carry-folded sum of the pdu's 16-bit big-endian words, where a trailing
odd byte forms a last word with a ZERO HIGH-ORDER byte (the word value is
the byte itself), rather than being padded on the low-order side. -/
theorem C5_checksum_algorithm (pdu : List Nat) :
    ichecksum pdu = pyNot16 (foldCarry (lowPadWords pdu).sum) := by
  rw [ichecksum, sum16_eq_lowPadWords_sum pdu.length pdu le_rfl]

/-! ## PacketBuffer (packet.py lines 153-188) -/

/-- Python values that may be used as a `PacketBuffer` index: a `Seq`
object (whose stored value is `n % 256` by the `Seq` constructor) or any
non-`Seq` value. -/
inductive PBKey where
  | seqKey (n : Nat)
  | nonSeq
deriving DecidableEq

/-- `PacketBuffer.__init__` state: `buf` is the dict with keys `0..255`
(all initially `None`), plus the `base` and `bufsize` attributes. -/
structure PacketBuffer where
  buf : Nat → Option (List Nat)
  base : Nat
  bufsize : Nat

/-- `PacketBuffer(bufsize)`: all 256 slots empty, `base = Seq(0)`. -/
def pbInit (bufsize : Nat) : PacketBuffer :=
  { buf := fun _ => none, base := 0, bufsize := bufsize }

/-- `PacketBuffer.__getitem__`: `_check_key` raises `TypeError` on a
non-`Seq` key, otherwise returns `self.buf[seq.seq]`. -/
def pbGet (b : PacketBuffer) : PBKey → Except String (Option (List Nat))
  | .seqKey n => .ok (b.buf (n % 256))
  | .nonSeq => .error "not Seq type"

/-- `PacketBuffer.__setitem__`: `_check_key` then `self.buf[seq.seq] = item`. -/
def pbSet (b : PacketBuffer) : PBKey → List Nat → Except String PacketBuffer
  | .seqKey n, item =>
    .ok { b with buf := fun q => if q = n % 256 then some item else b.buf q }
  | .nonSeq, _ => .error "not Seq type"

/-- `PacketBuffer.__delitem__`: `_check_key` then `self.buf[seq.seq] = None`. -/
def pbDel (b : PacketBuffer) : PBKey → Except String PacketBuffer
  | .seqKey n =>
    .ok { b with buf := fun q => if q = n % 256 then none else b.buf q }
  | .nonSeq => .error "not Seq type"

/-- C10: storage-slot aliasing and round-trip for `PacketBuffer`: for any
buffer (any `bufsize`, any current contents), any packet and any two `Seq`
indices with the same underlying value mod 256, a write through one is read
back through both; deletion makes the slot read `None`; `bufsize` plays no
role in any of the three operations (it is carried through unchanged and
never consulted); and indexing with a non-`Seq` key raises `TypeError`. -/
theorem C10_packetbuffer_slots (b : PacketBuffer) (p : List Nat) (n m : Nat)
    (hnm : n % 256 = m % 256) :
    (∃ b', pbSet b (.seqKey n) p = .ok b' ∧
      pbGet b' (.seqKey n) = .ok (some p) ∧
      pbGet b' (.seqKey m) = .ok (some p) ∧
      b'.bufsize = b.bufsize ∧
      ∀ q : Nat, q % 256 ≠ n % 256 → b'.buf (q % 256) = b.buf (q % 256)) ∧
    (∃ b'', pbDel b (.seqKey n) = .ok b'' ∧
      pbGet b'' (.seqKey n) = .ok none ∧
      pbGet b'' (.seqKey m) = .ok none ∧
      b''.bufsize = b.bufsize) ∧
    pbGet b .nonSeq = .error "not Seq type" ∧
    (∀ q, pbSet b .nonSeq q = .error "not Seq type") ∧
    pbDel b .nonSeq = .error "not Seq type" := by
  refine ⟨⟨_, rfl, ?_, ?_, rfl, ?_⟩, ⟨_, rfl, ?_, ?_, rfl⟩, rfl, fun _ => rfl, rfl⟩
  · simp [pbGet]
  · simp [pbGet, hnm]
  · intro q hq
    simp [if_neg hq]
  · simp [pbGet]
  · simp [pbGet, hnm]

/-- C10 witness: `Seq(260)` and `Seq(4)` alias the same slot of a buffer
of `bufsize` 4. -/
theorem C10_packetbuffer_slots_witness :
    (260 % 256 = 4 % 256) ∧
      ∃ b', pbSet (pbInit 4) (.seqKey 260) [1, 2] = .ok b' ∧
        pbGet b' (.seqKey 4) = .ok (some [1, 2]) := by
  refine ⟨by decide, ?_⟩
  obtain ⟨⟨b', h1, _, h3, _, _⟩, _, _⟩ :=
    C10_packetbuffer_slots (pbInit 4) [1, 2] 260 4 (by decide)
  exact ⟨b', h1, h3⟩

/-! ## Session opening (gbn.py lines 39-55, 259-272, 356-369) -/

/-- FSM states (gbn.py `State`). -/
inductive PState where
  | Wait
  | Closing
  | Closed
deriving DecidableEq

/-- `GBNsend.__init__` protocol state (gbn.py lines 259-272): window size
`N`, empty send buffer, state `Wait`, `base = next_seq = Seq(0)`.
The timer registry (from `GBN.__init__`) starts empty; registered expiry
instants are modelled as rationals. -/
structure GBNsendSt where
  wsizeN : Nat
  sndbuf : Nat → Option (List Nat)
  state : PState
  base : Nat
  next_seq : Nat
  times : List (Nat × ℚ)

/-- `GBNrecv.__init__` protocol state (gbn.py lines 356-369). -/
structure GBNrecvSt where
  wsizeN : Nat
  rcvbuf : Nat → Option (List Nat)
  state : PState
  base : Nat
  FIN_delivered : Bool

def initGBNsend (N : Nat) : GBNsendSt :=
  { wsizeN := N, sndbuf := fun _ => none, state := .Wait, base := 0, next_seq := 0,
    times := [] }

def initGBNrecv (N : Nat) : GBNrecvSt :=
  { wsizeN := N, rcvbuf := fun _ => none, state := .Wait, base := 0,
    FIN_delivered := false }

/-- The role-appropriate protocol entity returned by `open`. -/
inductive GBNentity where
  | sendE (g : GBNsendSt)
  | recvE (g : GBNrecvSt)

/-- `open(peer_host, N, passive)` (gbn.py lines 39-55): `assert N < Seq.MOD`
raises `AssertionError("N: too big")` when the window size is too large;
otherwise the role-appropriate entity is constructed and returned. -/
def gbnOpen (N : Nat) (passive : Bool) : Except String GBNentity :=
  if N < seqMOD then
    .ok (if passive then .recvE (initGBNrecv N) else .sendE (initGBNsend N))
  else
    .error "N: too big"

/-- C9: `open` fails exactly when `N >= MOD = 256`, and for every `N < 256`
it succeeds, returning the receiving entity when `passive` and the sending
entity otherwise. -/
theorem C9_open_precondition (N : Nat) (passive : Bool) :
    ((∃ e, gbnOpen N passive = .ok e) ↔ N < 256) ∧
    (N < 256 → gbnOpen N true = .ok (.recvE (initGBNrecv N)) ∧
               gbnOpen N false = .ok (.sendE (initGBNsend N))) ∧
    (256 ≤ N → gbnOpen N passive = .error "N: too big") := by
  have hmod : seqMOD = 256 := by decide
  refine ⟨⟨?_, ?_⟩, ?_, ?_⟩
  · rintro ⟨e, he⟩
    by_contra hN
    rw [gbnOpen, hmod, if_neg hN] at he
    exact Except.noConfusion he
  · intro hN
    exact ⟨_, by rw [gbnOpen, hmod, if_pos hN]⟩
  · intro hN
    constructor <;> (rw [gbnOpen, hmod, if_pos hN]; rfl)
  · intro hN
    rw [gbnOpen, hmod, if_neg (by omega)]

/-- C9 witness: `N = 16` opens both roles, `N = 256` is rejected. -/
theorem C9_open_precondition_witness :
    ((16 : Nat) < 256 ∧ gbnOpen 16 true = .ok (.recvE (initGBNrecv 16))) ∧
      (256 ≤ (256 : Nat) ∧ gbnOpen 256 false = .error "N: too big") :=
  ⟨⟨by decide, ((C9_open_precondition 16 true).2.1 (by decide)).1⟩,
   ⟨le_rfl, (C9_open_precondition 256 false).2.2 le_rfl⟩⟩

/-! ## Timer (gbn.py lines 72-112) -/

/-- Key function of `sorted(self.times.items(), key=lambda x: x[1])`:
compare registry entries by expiry instant. Expiry instants (Python
floats) are modelled as rationals; `check_timeout` only compares them. -/
def timeLe (a b : Nat × ℚ) : Bool := decide (a.2 ≤ b.2)

/-- The scan of `Timer.check_timeout` (gbn.py lines 95-101): walk the
value-sorted items and return the first whose expiry is `<= now`. -/
def findDue (now : ℚ) : List (Nat × ℚ) → Option (Nat × ℚ)
  | [] => none
  | kt :: rest => if kt.2 ≤ now then some kt else findDue now rest

/-- `Timer.check_timeout` (gbn.py lines 87-101): the registry is a dict
from timer kind to absolute expiry instant, modelled as an
insertion-ordered association list with unique keys; the method sorts the
items by expiry (Python's `sorted` is stable; `mergeSort` models it),
returns the first due kind deleting exactly its entry, or returns `None`
leaving the registry unchanged. -/
def check_timeout (times : List (Nat × ℚ)) (now : ℚ) : Option Nat × List (Nat × ℚ) :=
  match findDue now (times.mergeSort timeLe) with
  | none => (none, times)
  | some kt => (some kt.1, times.eraseP (fun x => x.1 == kt.1))

theorem findDue_none_iff (now : ℚ) :
    ∀ L, findDue now L = none ↔ ∀ kt ∈ L, ¬ kt.2 ≤ now := by
  intro L
  induction L with
  | nil => simp [findDue]
  | cons kt rest ih =>
    rw [findDue]
    split
    · next h =>
      simp only [List.mem_cons]
      constructor
      · intro hc
        exact Option.noConfusion hc
      · intro hall
        exact absurd h (hall kt (Or.inl rfl))
    · next h =>
      rw [ih]
      simp only [List.mem_cons]
      constructor
      · rintro hall kt' (rfl | hm)
        · exact h
        · exact hall kt' hm
      · intro hall kt' hm
        exact hall kt' (Or.inr hm)

theorem findDue_some (now : ℚ) :
    ∀ L, List.Pairwise (fun a b => timeLe a b = true) L →
      ∀ kt, findDue now L = some kt →
        kt ∈ L ∧ kt.2 ≤ now ∧ ∀ x ∈ L, kt.2 ≤ x.2 := by
  intro L
  induction L with
  | nil =>
    intro _ kt h
    exact Option.noConfusion h
  | cons hd rest ih =>
    intro hp kt h
    rw [findDue] at h
    rcases List.pairwise_cons.mp hp with ⟨hhd, hrest⟩
    split at h
    · next hdue =>
      cases h
      refine ⟨List.mem_cons_self _ _, hdue, ?_⟩
      intro x hx
      rcases List.mem_cons.mp hx with rfl | hx
      · exact le_refl _
      · simpa [timeLe] using hhd x hx
    · next hnot =>
      obtain ⟨hmem, hle, hmin⟩ := ih hrest kt h
      refine ⟨List.mem_cons_of_mem _ hmem, hle, ?_⟩
      intro x hx
      rcases List.mem_cons.mp hx with rfl | hx
      · linarith [hle]
      · exact hmin x hx

/-- Deleting by key from an association list with unique keys removes
exactly the one entry holding that key. -/
theorem eraseP_key_decomp :
    ∀ (times : List (Nat × ℚ)) (k : Nat) (t : ℚ),
      (times.map Prod.fst).Nodup → (k, t) ∈ times →
      ∃ l1 l2, times = l1 ++ (k, t) :: l2 ∧
        times.eraseP (fun x => x.1 == k) = l1 ++ l2 := by
  intro times
  induction times with
  | nil =>
    intro k t _ hm
    exact absurd hm (List.not_mem_nil _)
  | cons hd rest ih =>
    intro k t hnd hm
    rcases List.mem_cons.mp hm with rfl | hmem
    · refine ⟨[], rest, rfl, ?_⟩
      rw [List.eraseP_cons_of_pos (by simp)]
      rfl
    · have hk : hd.1 ≠ k := by
        simp only [List.map_cons, List.nodup_cons] at hnd
        intro hcontra
        exact hnd.1 (hcontra ▸ (List.mem_map.mpr ⟨(k, t), hmem, rfl⟩))
      obtain ⟨l1, l2, hdec, herase⟩ := ih k t (by
        simp only [List.map_cons, List.nodup_cons] at hnd
        exact hnd.2) hmem
      refine ⟨hd :: l1, l2, by rw [hdec]; rfl, ?_⟩
      rw [List.eraseP_cons_of_neg (by simp [hk]), herase]
      rfl

/-- C7: `Timer.check_timeout` returns `None` (leaving the registry
unchanged) iff no registered expiry is `<= now`; otherwise it returns the
kind whose expiry instant is earliest among all registered timers, with
that expiry due, and removes exactly that one entry, leaving all other
pending entries unchanged. -/
theorem C7_check_timeout_poll (times : List (Nat × ℚ)) (now : ℚ)
    (hnd : (times.map Prod.fst).Nodup) :
    ((check_timeout times now).1 = none ↔ ∀ kt ∈ times, ¬ kt.2 ≤ now) ∧
    ((check_timeout times now).1 = none → (check_timeout times now).2 = times) ∧
    (∀ k, (check_timeout times now).1 = some k →
      ∃ t l1 l2, times = l1 ++ (k, t) :: l2 ∧
        (check_timeout times now).2 = l1 ++ l2 ∧
        t ≤ now ∧ ∀ kt ∈ times, t ≤ kt.2) := by
  have hperm : (times.mergeSort timeLe).Perm times := List.mergeSort_perm times timeLe
  have htrans : ∀ a b c : Nat × ℚ, timeLe a b = true → timeLe b c = true →
      timeLe a c = true := by
    intro a b c hab hbc
    simp only [timeLe, decide_eq_true_eq] at *
    exact le_trans hab hbc
  have htotal : ∀ a b : Nat × ℚ, (timeLe a b || timeLe b a) = true := by
    intro a b
    simp only [timeLe, Bool.or_eq_true, decide_eq_true_eq]
    exact le_total a.2 b.2
  have hsorted := List.sorted_mergeSort htrans htotal times
  refine ⟨?_, ?_, ?_⟩
  · cases hfd : findDue now (times.mergeSort timeLe) with
    | none =>
      simp only [check_timeout, hfd]
      rw [findDue_none_iff] at hfd
      constructor
      · intro _ kt hm
        exact hfd kt (hperm.mem_iff.mpr hm)
      · intro _
        trivial
    | some kt =>
      simp only [check_timeout, hfd]
      obtain ⟨hmem, hdue, _⟩ := findDue_some now _ hsorted kt hfd
      constructor
      · intro hc
        exact Option.noConfusion hc
      · intro hall
        exact absurd hdue (hall kt (hperm.mem_iff.mp hmem))
  · cases hfd : findDue now (times.mergeSort timeLe) with
    | none => simp [check_timeout, hfd]
    | some kt => simp [check_timeout, hfd]
  · intro k hk
    cases hfd : findDue now (times.mergeSort timeLe) with
    | none => simp [check_timeout, hfd] at hk
    | some kt =>
      simp only [check_timeout, hfd] at hk
      cases hk
      obtain ⟨hmem, hdue, hmin⟩ := findDue_some now _ hsorted kt hfd
      have hmemt : kt ∈ times := hperm.mem_iff.mp hmem
      obtain ⟨l1, l2, hdec, herase⟩ := eraseP_key_decomp times kt.1 kt.2 hnd (by
        simpa using hmemt)
      refine ⟨kt.2, l1, l2, hdec, ?_, hdue, ?_⟩
      · simp only [check_timeout, hfd]
        exact herase
      · intro x hx
        exact hmin x (hperm.mem_iff.mpr hx)

/-- C7 witness: in the registry holding kind 32 at expiry 3 and kind 33 at
expiry 1, polled at time 2, the due entry (33, 1) is the earliest, is
selected, and exactly it is removed. -/
theorem C7_check_timeout_poll_witness :
    (([(32, (3 : ℚ)), (33, 1)].map Prod.fst).Nodup) ∧
      ∃ t l1 l2, [(32, (3 : ℚ)), (33, 1)] = l1 ++ ((33 : Nat), t) :: l2 ∧
        (check_timeout [(32, (3 : ℚ)), (33, 1)] 2).2 = l1 ++ l2 ∧
        t ≤ 2 ∧ ∀ kt ∈ [(32, (3 : ℚ)), (33, 1)], t ≤ kt.2 := by
  have hnd : (([(32, (3 : ℚ)), (33, 1)]).map Prod.fst).Nodup := by decide
  refine ⟨hnd, ?_⟩
  have hthm := C7_check_timeout_poll [(32, (3 : ℚ)), (33, 1)] 2 hnd
  have hne : (check_timeout [(32, (3 : ℚ)), (33, 1)] 2).1 ≠ none := by
    intro h
    have hall := hthm.1.mp h ((33 : Nat), (1 : ℚ)) (by simp)
    norm_num at hall
  cases hck : (check_timeout [(32, (3 : ℚ)), (33, 1)] 2).1 with
  | none => exact absurd hck hne
  | some k =>
    obtain ⟨t, l1, l2, hdec, herase, hdue, hmin⟩ := hthm.2.2 k hck
    have hmem : ((k, t) : Nat × ℚ) ∈ [(32, (3 : ℚ)), (33, 1)] := by
      rw [hdec]
      simp
    simp only [List.mem_cons, List.not_mem_nil, or_false, Prod.mk.injEq] at hmem
    rcases hmem with ⟨hk32, ht3⟩ | ⟨hk33, ht1⟩
    · rw [ht3] at hdue
      norm_num at hdue
    · subst hk33
      exact ⟨t, l1, l2, hdec, herase, hdue, hmin⟩

/-! ## Sender engine (gbn.py lines 259-352, spec section 4.6)

`GBNsend.send_packet`, `GBNsend.handle_ACK`, `GBNsend.retransmit` and the
`Wait`-state transitions are placeholders in the source (`### Your code
here`); they are modelled from the spec below, as marked. `get_event`
(the flow-control gate) and the `Closing`-state transitions are real
source code. -/

/-- `TO_interval` (gbn.py lines 26-30) with `EXTRA_MEAN_DELAY = 0`; keys
are the `Ev` values `TO_Retransmit = 32`, `TO_Closing = 33`,
`TO_DelayedACK = 34`. Instants and intervals are modelled as rationals. -/
def TO_interval (key : Nat) : ℚ :=
  if key = 32 then 3/10 + 5 * 0
  else if key = 33 then 1
  else if key = 34 then 1/2
  else 0

/-- Python dict assignment `d[k] = v` on an insertion-ordered association
list: overwrite in place if the key exists, else append. -/
def setKey (l : List (Nat × ℚ)) (k : Nat) (v : ℚ) : List (Nat × ℚ) :=
  match l with
  | [] => [(k, v)]
  | (k', v') :: rest => if k' = k then (k, v) :: rest else (k', v') :: setKey rest k v

/-- `Timer.start_timer` (gbn.py lines 80-81):
`self.times[key] = time.time() + self.intv[key]`. -/
def start_timer (times : List (Nat × ℚ)) (key : Nat) (now : ℚ) : List (Nat × ℚ) :=
  setKey times key (now + TO_interval key)

/-- `Timer.stop_timer` (gbn.py lines 83-85): delete the key if present. -/
def stop_timer (times : List (Nat × ℚ)) (key : Nat) : List (Nat × ℚ) :=
  times.eraseP (fun x => x.1 == key)

/-- Dict lookup by key. -/
def lookupKey (l : List (Nat × ℚ)) (k : Nat) : Option ℚ :=
  (l.find? (fun x => x.1 == k)).map Prod.snd

theorem lookupKey_setKey (l : List (Nat × ℚ)) (k : Nat) (v : ℚ) :
    lookupKey (setKey l k v) k = some v := by
  induction l with
  | nil => simp [setKey, lookupKey, List.find?]
  | cons hd rest ih =>
    rw [setKey]
    split
    · simp [lookupKey, List.find?]
    · next hne =>
      rw [lookupKey, List.find?]
      have : (hd.1 == k) = false := by
        simp only [beq_eq_false_iff_ne, ne_eq]
        exact hne
      rw [this]
      exact ih

/-- `Packet.__getattr__ 'type'`: `self.pdu[0]`. -/
def pktType (pdu : List Nat) : Nat := pdu.getD 0 0

/-- `Packet.__getattr__ 'seq'`: `Seq(self.pdu[1])`. -/
def pktSeq (pdu : List Nat) : Nat := pdu.getD 1 0

/-- Sender events: an application chunk became available, a packet
arrived from the channel, or the Retransmit timer fired. -/
inductive SEv where
  | appRequest (data : List Nat)
  | pktArrival (pdu : List Nat)
  | toRetransmit

/-- The `get_event` flow-control gate of `GBNsend` (gbn.py line 302):
`App_Request` is surfaced only when `self.next_seq < (self.base + self.N)`
under the circular `Seq` comparison. -/
def appRequestAllowed (s : GBNsendSt) : Bool :=
  seqLt s.next_seq (seqAdd s.base s.wsizeN)

/-- `GBNsend.get_event` (gbn.py lines 298-306): the filtering applied to a
raw event before it is returned to the FSM; a pending `App_Request` is
turned into no event (the chunk stays queued) while the window is full. -/
def get_event_filter (s : GBNsendSt) (ev : Option SEv) : Option SEv :=
  match ev with
  | some (.appRequest data) =>
    if appRequestAllowed s then some (.appRequest data) else none
  | e => e

/-- Modelled from the spec: `GBNsend.send_packet` is a placeholder in the
source; spec section 4.6 `AppRequest`: encode a FIN frame (type 4) for the
end-of-stream sentinel (empty chunk) or a DATA frame (type 1) otherwise at
`next_seq`, store it in the send buffer, transmit it, start the Retransmit
timer if this is the only outstanding frame (`base == next_seq` before the
increment), and advance `next_seq` by one. -/
def send_packet (now : ℚ) (s : GBNsendSt) (data : List Nat) : GBNsendSt × List Nat :=
  let typ := if data = [] then 4 else 1
  let pkt := mkPacket typ s.next_seq data
  ({ s with
      sndbuf := fun q => if q = s.next_seq then some pkt else s.sndbuf q,
      times := if s.base = s.next_seq then start_timer s.times 32 now else s.times,
      next_seq := (s.next_seq + 1) % 256 }, pkt)

/-- Modelled from the spec: `GBNsend.handle_ACK` is a placeholder in the
source; spec section 4.6 `PacketArrival`: a valid ACK is cumulative — when
the acknowledged number lies inside the outstanding window `[base,
next_seq)` (circularly), advance `base` to `ackSeq + 1`, clearing every
send-buffer slot in `[base, ackSeq]`; stop the Retransmit timer if the
window drained (`base == next_seq`), else restart it. An ACK outside the
window acknowledges nothing and changes nothing. -/
def handle_ACK (now : ℚ) (s : GBNsendSt) (a : Nat) : GBNsendSt :=
  if (a + 256 - s.base) % 256 < (s.next_seq + 256 - s.base) % 256 then
    let b' := (a + 1) % 256
    { s with
        base := b',
        sndbuf := fun q => if (srange s.base b').contains q then none else s.sndbuf q,
        times := if b' = s.next_seq then stop_timer s.times 32
                 else start_timer s.times 32 now }
  else s

/-- Modelled from the spec: `GBNsend.retransmit` is a placeholder in the
source; spec section 4.6 `RetransmitTimeout`: "retransmit every
still-buffered frame with sequence in `[base, nextSeq)`, in ascending
order, then restart the Retransmit timer". The first component is the
list of pdus handed to `udt_send`, in transmission order; the second the
timer registry afterwards. -/
def retransmit (now : ℚ) (s : GBNsendSt) : List (List Nat) × List (Nat × ℚ) :=
  ((srange s.base s.next_seq).filterMap s.sndbuf, start_timer s.times 32 now)

/-- One FSM step of `GBNsend.fsm` (gbn.py lines 315-352). The `Closing`
branch (lines 337-347) is source code; the `Wait` branch is a placeholder
in the source and is modelled from spec section 4.6. -/
def fsmStep (now : ℚ) (s : GBNsendSt) (e : SEv) : GBNsendSt :=
  match s.state with
  | .Wait =>
    match e with
    | .appRequest data =>
      let s' := (send_packet now s data).1
      if data = [] then { s' with state := .Closing } else s'
    | .pktArrival pdu =>
      if corrupt pdu = false ∧ pktType pdu &&& 2 ≠ 0 then
        handle_ACK now s (pktSeq pdu)
      else s
    | .toRetransmit => { s with times := (retransmit now s).2 }
  | .Closing =>
    match e with
    | .toRetransmit => { s with times := (retransmit now s).2 }
    | .pktArrival pdu =>
      if corrupt pdu = false ∧ pktType pdu &&& 2 ≠ 0 then
        let s' := handle_ACK now s (pktSeq pdu)
        if s'.base = s'.next_seq then { s' with state := .Closed } else s'
      else s
    | .appRequest _ => s
  | .Closed => s

/-- The pdus handed to `udt_send` during one FSM step. -/
def fsmSends (now : ℚ) (s : GBNsendSt) (e : SEv) : List (List Nat) :=
  match s.state with
  | .Wait =>
    match e with
    | .appRequest data => [(send_packet now s data).2]
    | .toRetransmit => (retransmit now s).1
    | .pktArrival _ => []
  | .Closing =>
    match e with
    | .toRetransmit => (retransmit now s).1
    | _ => []
  | .Closed => []

/-- Which events the event loop can hand to the FSM in a given state: the
loop only runs while not `Closed`, arriving pdus are byte strings, and an
`App_Request` passes the `get_event` window gate. -/
def eventAllowed (s : GBNsendSt) : SEv → Prop
  | .appRequest _ => s.state ≠ .Closed ∧ appRequestAllowed s = true
  | .pktArrival pdu => s.state ≠ .Closed ∧ ∀ b ∈ pdu, b < 256
  | .toRetransmit => s.state ≠ .Closed

/-- One allowed transition of the sender engine. -/
def SStep (s s' : GBNsendSt) : Prop :=
  ∃ now e, eventAllowed s e ∧ s' = fsmStep now s e

/-- Sender states reachable from `GBNsend.__init__` with window size `N`. -/
def SReachable (N : Nat) (s : GBNsendSt) : Prop :=
  Relation.ReflTransGen SStep (initGBNsend N) s

/-- The sender invariant carried through every reachable state. -/
def SInv (N : Nat) (s : GBNsendSt) : Prop :=
  s.base < 256 ∧ s.next_seq < 256 ∧ s.wsizeN = N ∧
    (s.next_seq + 256 - s.base) % 256 ≤ N

theorem seqAdd_eq (a n : Nat) : seqAdd a n = (a + n) % 256 := by
  rw [seqAdd, mkSeq]
  norm_num [seqMOD, Nat.shiftLeft_eq]

theorem seqLt_iff (a b : Nat) :
    seqLt a b = true ↔ ((a < b ∧ b - a < 128) ∨ (b < a ∧ 128 < a - b)) := by
  have hH : seqHALF = 128 := by decide
  simp [seqLt, hH]

/-- `handle_ACK` preserves the sender invariant: a valid cumulative ACK
only moves `base` forward within the outstanding window. -/
theorem SInv_handle_ACK (N : Nat) (now : ℚ) (s : GBNsendSt) (a : Nat)
    (hs : SInv N s) : SInv N (handle_ACK now s a) := by
  obtain ⟨hb, hn, hw, hd⟩ := hs
  rw [handle_ACK]
  split
  · next hin =>
    refine ⟨?_, hn, hw, ?_⟩
    · show (a + 1) % 256 < 256
      omega
    · show (s.next_seq + 256 - (a + 1) % 256) % 256 ≤ N
      omega
  · exact ⟨hb, hn, hw, hd⟩

/-- Every allowed FSM step preserves the sender invariant. -/
theorem SInv_step (N : Nat) (hN : N < 256) (s s' : GBNsendSt)
    (hs : SInv N s) (hstep : SStep s s') : SInv N s' := by
  obtain ⟨now, e, hallow, rfl⟩ := hstep
  obtain ⟨hb, hn, hw, hd⟩ := hs
  cases hstate : s.state with
  | Closed =>
    simp only [fsmStep, hstate]
    exact ⟨hb, hn, hw, hd⟩
  | Wait =>
    cases e with
    | appRequest data =>
      rcases hallow with ⟨-, hgate⟩
      rw [appRequestAllowed, seqAdd_eq, seqLt_iff, hw] at hgate
      simp only [fsmStep, hstate, send_packet]
      split
      · refine ⟨hb, ?_, hw, ?_⟩
        · show (s.next_seq + 1) % 256 < 256
          omega
        · show ((s.next_seq + 1) % 256 + 256 - s.base) % 256 ≤ N
          omega
      · refine ⟨hb, ?_, hw, ?_⟩
        · show (s.next_seq + 1) % 256 < 256
          omega
        · show ((s.next_seq + 1) % 256 + 256 - s.base) % 256 ≤ N
          omega
    | pktArrival pdu =>
      simp only [fsmStep, hstate]
      split
      · exact SInv_handle_ACK N now s (pktSeq pdu) ⟨hb, hn, hw, hd⟩
      · exact ⟨hb, hn, hw, hd⟩
    | toRetransmit =>
      simp only [fsmStep, hstate]
      exact ⟨hb, hn, hw, hd⟩
  | Closing =>
    cases e with
    | appRequest data =>
      simp only [fsmStep, hstate]
      exact ⟨hb, hn, hw, hd⟩
    | pktArrival pdu =>
      simp only [fsmStep, hstate]
      split
      · have hack := SInv_handle_ACK N now s (pktSeq pdu) ⟨hb, hn, hw, hd⟩
        split
        · exact hack
        · exact hack
      · exact ⟨hb, hn, hw, hd⟩
    | toRetransmit =>
      simp only [fsmStep, hstate]
      exact ⟨hb, hn, hw, hd⟩

/-- C1: in every reachable sender state the circular distance
`next_seq - base` never exceeds the window size `N`; moreover, while the
window is full, the `get_event` gate is closed, so `get_event` never
returns `App_Request` (the queued chunk stays pending). The gate and the
`Closing` transitions are source code; `send_packet`, `handle_ACK`,
`retransmit` and the `Wait` transitions are modelled from spec
section 4.6 (they are placeholders in the source). -/
theorem C1_sender_window_bound (N : Nat) (hN : N < 256) (s : GBNsendSt)
    (hr : SReachable N s) :
    (s.next_seq + 256 - s.base) % 256 ≤ N ∧
    ((s.next_seq + 256 - s.base) % 256 = N →
      appRequestAllowed s = false ∧
      ∀ data, get_event_filter s (some (.appRequest data)) = none) := by
  have hinv : SInv N s := by
    induction hr with
    | refl =>
      refine ⟨?_, ?_, rfl, ?_⟩
      · show (0 : Nat) < 256
        norm_num
      · show (0 : Nat) < 256
        norm_num
      · show (0 + 256 - 0) % 256 ≤ N
        omega
    | tail h1 h2 ih => exact SInv_step N hN _ _ ih h2
  obtain ⟨hb, hn, hw, hd⟩ := hinv
  refine ⟨hd, ?_⟩
  intro hfull
  have hgate : appRequestAllowed s = false := by
    rw [appRequestAllowed, seqAdd_eq, hw]
    cases hcase : seqLt s.next_seq ((s.base + N) % 256) with
    | false => rfl
    | true =>
      exfalso
      have h := (seqLt_iff _ _).mp hcase
      omega
  refine ⟨hgate, ?_⟩
  intro data
  simp [get_event_filter, hgate]

/-- Two `App_Request` steps from the initial sender state with `N = 2`. -/
def senderW1 : GBNsendSt := fsmStep 0 (initGBNsend 2) (.appRequest [7])

def senderW2 : GBNsendSt := fsmStep 0 senderW1 (.appRequest [8])

/-- C1 witness: with `N = 2`, after two sends the window is full
(`next_seq - base = 2`) and the gate suppresses `App_Request`. -/
theorem C1_sender_window_bound_witness :
    ((2 : Nat) < 256 ∧ SReachable 2 senderW2) ∧
      ((senderW2.next_seq + 256 - senderW2.base) % 256 ≤ 2 ∧
        ((senderW2.next_seq + 256 - senderW2.base) % 256 = 2 →
          appRequestAllowed senderW2 = false ∧
          ∀ data, get_event_filter senderW2 (some (.appRequest data)) = none)) := by
  have hstep1 : SStep (initGBNsend 2) senderW1 :=
    ⟨0, .appRequest [7], ⟨by decide, by decide⟩, rfl⟩
  have hstep2 : SStep senderW1 senderW2 :=
    ⟨0, .appRequest [8], ⟨by decide, by decide⟩, rfl⟩
  have hr : SReachable 2 senderW2 :=
    Relation.ReflTransGen.tail
      (Relation.ReflTransGen.tail Relation.ReflTransGen.refl hstep1) hstep2
  exact ⟨⟨by decide, hr⟩, C1_sender_window_bound 2 (by decide) senderW2 hr⟩

/-- Mapping a well-formed buffer lookup over a sequence range gives the
re-sent frames' sequence numbers as a subsequence of the range (hence in
the same ascending circular order). -/
theorem filterMap_seq_sublist (f : Nat → Option (List Nat))
    (hwf : ∀ q p, f q = some p → pktSeq p = q) :
    ∀ r : List Nat, ((r.filterMap f).map pktSeq).Sublist r := by
  intro r
  induction r with
  | nil => simp
  | cons q rest ih =>
    cases hf : f q with
    | none =>
      rw [List.filterMap_cons_none hf]
      exact ih.cons q
    | some p =>
      rw [List.filterMap_cons_some hf, List.map_cons, hwf q p hf]
      exact ih.cons₂ q

/-- C6: handling a Retransmit timeout in state `Wait` or `Closing`
re-sends exactly the frames still stored in the send buffer with sequence
number in `[base, next_seq)` (circularly), in ascending circular order
(their sequence numbers form a subsequence of `srange base next_seq`),
leaves the protocol state unchanged apart from the timers, and restarts
the Retransmit timer (kind 32) to `now + interval`. `retransmit` itself
is modelled from spec section 4.6 (a placeholder in the source); the
`Closing`-state dispatch to it is source code (gbn.py lines 337-339). -/
theorem C6_retransmit_action (now : ℚ) (s : GBNsendSt)
    (hwf : ∀ q p, s.sndbuf q = some p → pktSeq p = q) :
    (∀ p, p ∈ (retransmit now s).1 ↔
      ∃ q ∈ srange s.base s.next_seq, s.sndbuf q = some p) ∧
    ((retransmit now s).1.map pktSeq).Sublist (srange s.base s.next_seq) ∧
    lookupKey (retransmit now s).2 32 = some (now + TO_interval 32) ∧
    (s.state = .Wait ∨ s.state = .Closing →
      fsmStep now s .toRetransmit = { s with times := (retransmit now s).2 } ∧
      fsmSends now s .toRetransmit = (retransmit now s).1) := by
  refine ⟨?_, ?_, ?_, ?_⟩
  · intro p
    rw [retransmit]
    exact List.mem_filterMap
  · exact filterMap_seq_sublist s.sndbuf hwf (srange s.base s.next_seq)
  · rw [retransmit, start_timer]
    exact lookupKey_setKey s.times 32 (now + TO_interval 32)
  · rintro (hst | hst) <;>
      exact ⟨by simp only [fsmStep, hst], by simp only [fsmSends, hst]⟩

/-- Sender state with two outstanding buffered frames, for the C6 witness. -/
def senderC6 : GBNsendSt :=
  { wsizeN := 2,
    sndbuf := fun q =>
      if q = 0 then some (mkPacket 1 0 [97])
      else if q = 1 then some (mkPacket 1 1 [98]) else none,
    state := .Wait, base := 0, next_seq := 2, times := [] }

/-- C6 witness: on the concrete two-frame sender state the retransmit
action satisfies all the stated properties. -/
theorem C6_retransmit_action_witness :
    (∀ q p, senderC6.sndbuf q = some p → pktSeq p = q) ∧
    ((∀ p, p ∈ (retransmit 0 senderC6).1 ↔
        ∃ q ∈ srange senderC6.base senderC6.next_seq, senderC6.sndbuf q = some p) ∧
      ((retransmit 0 senderC6).1.map pktSeq).Sublist
        (srange senderC6.base senderC6.next_seq) ∧
      lookupKey (retransmit 0 senderC6).2 32 = some (0 + TO_interval 32) ∧
      (senderC6.state = .Wait ∨ senderC6.state = .Closing →
        fsmStep 0 senderC6 .toRetransmit =
          { senderC6 with times := (retransmit 0 senderC6).2 } ∧
        fsmSends 0 senderC6 .toRetransmit = (retransmit 0 senderC6).1)) := by
  have hwf : ∀ q p, senderC6.sndbuf q = some p → pktSeq p = q := by
    intro q p h
    simp only [senderC6] at h
    by_cases h0 : q = 0
    · subst h0
      rw [if_pos rfl] at h
      cases h
      rfl
    · rw [if_neg h0] at h
      by_cases h1 : q = 1
      · subst h1
        rw [if_pos rfl] at h
        cases h
        rfl
      · rw [if_neg h1] at h
        exact Option.noConfusion h
  exact ⟨hwf, C6_retransmit_action 0 senderC6 hwf⟩
